import Mathlib

/-!
# Verification of the synk push reconciliation engine

A shallow embedding of the push path of `src/client/synk.py`: the diff
engine (file diff, directory diff, create-side and delete-side pruning),
the snapshot store interaction, the remote operation executor (command
order, recursive delete fallback, ancestor directory auto-creation) and
the chunked content hasher.  Paths are modelled as lists of segments,
matching `pathlib.Path.parts`; `Path.is_relative_to` is segment-prefix
testing, `dict`s are association lists queried through `lookupHash`.
-/

namespace Synk

/-- A relative POSIX path, as its list of segments (`pathlib.Path.parts`). -/
abbrev RPath := List String

/-- `Path(p).is_relative_to(q)`: the segments of `q` are a prefix of the
segments of `p` (this includes `p = q`, as in `pathlib`). -/
def isRelativeTo (p q : RPath) : Bool := q.isPrefixOf p

/-- The `{file path -> hash}` dictionary, as an association list. -/
abbrev FileMap := List (RPath × String)

/-- Dictionary lookup: the value stored at key `f`, if any. -/
def lookupHash (m : FileMap) (f : RPath) : Option String :=
  match m with
  | [] => none
  | (k, v) :: rest => if f = k then some v else lookupHash rest f

/-- `file in d` on a Python dict. -/
def containsKey (m : FileMap) (f : RPath) : Bool := (lookupHash m f).isSome

/-- The persisted snapshot: `{"files": ..., "dirs": ...}` of `index.json`. -/
structure Snapshot where
  files : FileMap
  dirs : List RPath
deriving Repr, DecidableEq

/-- The four operation lists computed by `push`. -/
structure OperationSet where
  filesToPush : List RPath
  filesToDelete : List RPath
  dirsToCreate : List RPath
  dirsToDelete : List RPath
deriving Repr, DecidableEq

/-! ## Diff engine (synk.py, `push`, lines 187-258) -/

/-- Lines 206-210: a file is pushed when it is in the current mapping and
either its hash differs from the old one or it is absent from the old
mapping. -/
def filesToPushList (cur old : FileMap) : List RPath :=
  (cur.map Prod.fst).filter fun f =>
    (containsKey old f && (lookupHash cur f != lookupHash old f)) || !containsKey old f

/-- Lines 212-216: a file is deleted when it is an old key absent from the
current mapping. -/
def filesToDeleteList (old cur : FileMap) : List RPath :=
  (old.map Prod.fst).filter fun f => !containsKey cur f

/-- Lines 218-221: directories in the current set absent from the old set. -/
def dirsToCreateRaw (curDirs oldDirs : List RPath) : List RPath :=
  curDirs.filter fun d => !oldDirs.contains d

/-- Lines 223-226: directories in the old set absent from the current set. -/
def dirsToDeleteRaw (curDirs oldDirs : List RPath) : List RPath :=
  oldDirs.filter fun d => !curDirs.contains d

/-- Lines 231-242: keep a directory only if no file to push lies inside it
and no other directory of the raw list lies inside it. -/
def pruneCreate (dirsToCreate filesToPush : List RPath) : List RPath :=
  dirsToCreate.filter fun d =>
    !(filesToPush.any fun f => isRelativeTo f d) &&
    !(dirsToCreate.any fun other => other != d && isRelativeTo other d)

/-- Lines 244-252: keep a directory only if no other directory of the raw
list is an ancestor of it. -/
def pruneDeleteDirs (dirsToDelete : List RPath) : List RPath :=
  dirsToDelete.filter fun d =>
    !(dirsToDelete.any fun other => other != d && isRelativeTo d other)

/-- Lines 254-258: drop the files lying inside a directory of the pruned
delete list. -/
def pruneDeleteFiles (filesToDelete prunedDirs : List RPath) : List RPath :=
  filesToDelete.filter fun f => !(prunedDirs.any fun dir => isRelativeTo f dir)

/-- Lines 193-226: the four raw lists, before pruning.  `old = none` is the
first-run branch (no `index.json`): push every file, create every
directory. -/
def rawOps (cur : Snapshot) (old : Option Snapshot) : OperationSet :=
  match old with
  | none => ⟨cur.files.map Prod.fst, [], cur.dirs, []⟩
  | some o =>
    ⟨filesToPushList cur.files o.files,
     filesToDeleteList o.files cur.files,
     dirsToCreateRaw cur.dirs o.dirs,
     dirsToDeleteRaw cur.dirs o.dirs⟩

/-- Lines 187-258: the complete operation set of a push, raw diff followed
by the three pruning passes. -/
def computePlan (cur : Snapshot) (old : Option Snapshot) : OperationSet :=
  let raw := rawOps cur old
  let dtd := pruneDeleteDirs raw.dirsToDelete
  { filesToPush := raw.filesToPush
    filesToDelete := pruneDeleteFiles raw.filesToDelete dtd
    dirsToCreate := pruneCreate raw.dirsToCreate raw.filesToPush
    dirsToDelete := dtd }

/-! ## Basic lemmas about the path and map model -/

theorem isRelativeTo_iff {p q : RPath} : isRelativeTo p q = true ↔ q <+: p := by
  unfold isRelativeTo
  induction q generalizing p with
  | nil => simp [List.isPrefixOf]
  | cons a as ih =>
    cases p with
    | nil => simp [List.isPrefixOf]
    | cons b bs =>
      simp only [List.isPrefixOf, Bool.and_eq_true, beq_iff_eq, ih,
        List.cons_prefix_cons]

theorem lookup_isSome_iff {m : FileMap} {f : RPath} :
    (lookupHash m f).isSome = true ↔ f ∈ m.map Prod.fst := by
  induction m with
  | nil => simp [lookupHash]
  | cons e rest ih =>
    obtain ⟨k, v⟩ := e
    by_cases h : f = k
    · subst h; simp [lookupHash]
    · simp [lookupHash, h, ih]

theorem containsKey_iff {m : FileMap} {f : RPath} :
    containsKey m f = true ↔ f ∈ m.map Prod.fst := by
  simpa [containsKey] using lookup_isSome_iff (m := m) (f := f)

theorem lookup_eq_some_of_mem {m : FileMap} {f : RPath}
    (h : f ∈ m.map Prod.fst) : ∃ v, lookupHash m f = some v := by
  have := (lookup_isSome_iff (m := m) (f := f)).mpr h
  exact Option.isSome_iff_exists.mp this

/-! ## C2: characterisation of the file diff -/

/-- "present in both mappings with differing hashes" -/
def editedAt (cur old : FileMap) (f : RPath) : Prop :=
  (∃ hc, lookupHash cur f = some hc) ∧ (∃ ho, lookupHash old f = some ho) ∧
    lookupHash cur f ≠ lookupHash old f

/-- "present only in the current mapping" -/
def newAt (cur old : FileMap) (f : RPath) : Prop :=
  (∃ hc, lookupHash cur f = some hc) ∧ lookupHash old f = none

/-- "present only in the previous mapping" -/
def removedAt (cur old : FileMap) (f : RPath) : Prop :=
  lookupHash cur f = none ∧ ∃ ho, lookupHash old f = some ho

theorem mem_filesToPushList_iff {cur old : FileMap} {f : RPath} :
    f ∈ filesToPushList cur old ↔
      f ∈ cur.map Prod.fst ∧
        ((containsKey old f && (lookupHash cur f != lookupHash old f)) ||
          !containsKey old f) = true := by
  simp [filesToPushList, List.mem_filter]

theorem mem_filesToDeleteList_iff {old cur : FileMap} {f : RPath} :
    f ∈ filesToDeleteList old cur ↔
      f ∈ old.map Prod.fst ∧ containsKey cur f = false := by
  simp [filesToDeleteList, List.mem_filter]

/-- **C2.** The file diff marks a path for upload iff it is present in both
mappings with differing hashes or present only in the current mapping, and
marks it for delete iff it is present only in the previous mapping; per
path, the cases upload / delete / present-in-both-unchanged are mutually
exclusive and cover every path present in either mapping. -/
theorem fileDiff_characterisation (cur old : FileMap) (f : RPath) :
    (f ∈ filesToPushList cur old ↔ editedAt cur old f ∨ newAt cur old f) ∧
    (f ∈ filesToDeleteList old cur ↔ removedAt cur old f) ∧
    ¬(f ∈ filesToPushList cur old ∧ f ∈ filesToDeleteList old cur) ∧
    ((∃ v, lookupHash cur f = some v) ∨ (∃ v, lookupHash old f = some v) →
      f ∈ filesToPushList cur old ∨ f ∈ filesToDeleteList old cur ∨
        ((∃ hc, lookupHash cur f = some hc) ∧ lookupHash cur f = lookupHash old f)) := by
  have hcur : (f ∈ cur.map Prod.fst) ↔ ((lookupHash cur f).isSome = true) :=
    lookup_isSome_iff.symm
  have hold : (f ∈ old.map Prod.fst) ↔ ((lookupHash old f).isSome = true) :=
    lookup_isSome_iff.symm
  rcases hc : lookupHash cur f with _ | vc <;> rcases ho : lookupHash old f with _ | vo <;>
    simp only [hc, ho] at hcur hold <;>
    simp [editedAt, newAt, removedAt, mem_filesToPushList_iff,
      mem_filesToDeleteList_iff, containsKey, hc, ho, hcur, hold, bne_iff_ne] <;>
    tauto

/-! ## C3 / C5: pruning characterisations -/

theorem list_any_eq_false {l : List RPath} {p : RPath → Bool} :
    l.any p = false ↔ ∀ x ∈ l, p x = false := by
  constructor
  · intro h x hx
    cases hpx : p x
    · rfl
    · have := List.any_eq_true.mpr ⟨x, hx, hpx⟩
      rw [h] at this; cases this
  · intro h
    cases hall : l.any p
    · rfl
    · obtain ⟨x, hx, hpx⟩ := List.any_eq_true.mp hall
      rw [h x hx] at hpx; cases hpx

theorem mem_pruneCreate_iff {dirsRaw filesUp : List RPath} {d : RPath} :
    d ∈ pruneCreate dirsRaw filesUp ↔
      d ∈ dirsRaw ∧
      (∀ f ∈ filesUp, isRelativeTo f d = false) ∧
      (∀ o ∈ dirsRaw, o ≠ d → isRelativeTo o d = false) := by
  rw [pruneCreate, List.mem_filter]
  refine and_congr_right fun _ => ?_
  rw [Bool.and_eq_true, Bool.not_eq_true', Bool.not_eq_true',
    list_any_eq_false, list_any_eq_false]
  refine and_congr_right fun _ => ?_
  constructor
  · intro hB o ho hne
    have h1 := hB o ho
    have h2 : (o != d) = true := bne_iff_ne.mpr hne
    rwa [h2, Bool.true_and] at h1
  · intro hB o ho
    cases hne : (o != d)
    · rw [Bool.false_and]
    · rw [Bool.true_and]
      exact hB o ho (bne_iff_ne.mp hne)

theorem mem_pruneDeleteDirs_iff {dirsRaw : List RPath} {d : RPath} :
    d ∈ pruneDeleteDirs dirsRaw ↔
      d ∈ dirsRaw ∧ ∀ o ∈ dirsRaw, o ≠ d → isRelativeTo d o = false := by
  rw [pruneDeleteDirs, List.mem_filter]
  refine and_congr_right fun _ => ?_
  rw [Bool.not_eq_true', list_any_eq_false]
  constructor
  · intro hB o ho hne
    have h1 := hB o ho
    have h2 : (o != d) = true := bne_iff_ne.mpr hne
    rwa [h2, Bool.true_and] at h1
  · intro hB o ho
    cases hne : (o != d)
    · rw [Bool.false_and]
    · rw [Bool.true_and]
      exact hB o ho (bne_iff_ne.mp hne)

theorem mem_pruneDeleteFiles_iff {filesDel prunedDirs : List RPath} {f : RPath} :
    f ∈ pruneDeleteFiles filesDel prunedDirs ↔
      f ∈ filesDel ∧ ∀ dir ∈ prunedDirs, isRelativeTo f dir = false := by
  rw [pruneDeleteFiles, List.mem_filter]
  refine and_congr_right fun _ => ?_
  rw [Bool.not_eq_true', list_any_eq_false]

/-- **C3.** A raw `dirsToCreate` entry is dropped by the create-side pruning
iff a file to push lies within it or a deeper raw `dirsToCreate` entry is
nested under it; consequently the pruned list never contains a directory
that is an ancestor of another directory also in the pruned list. -/
theorem createPruning_correct (dirsRaw filesUp : List RPath) :
    (∀ d ∈ dirsRaw, (d ∉ pruneCreate dirsRaw filesUp ↔
      (∃ f ∈ filesUp, isRelativeTo f d = true) ∨
      (∃ o ∈ dirsRaw, o ≠ d ∧ isRelativeTo o d = true))) ∧
    (∀ d ∈ pruneCreate dirsRaw filesUp, ∀ d' ∈ pruneCreate dirsRaw filesUp,
      d ≠ d' → isRelativeTo d' d = false) := by
  constructor
  · intro d hd
    rw [mem_pruneCreate_iff]
    constructor
    · intro hdrop
      by_contra hno
      push_neg at hno
      obtain ⟨h1, h2⟩ := hno
      refine hdrop ⟨hd, fun f hf => ?_, fun o ho hne => ?_⟩
      · cases hb : isRelativeTo f d
        · rfl
        · exact absurd hb (h1 f hf)
      · cases hb : isRelativeTo o d
        · rfl
        · exact absurd hb (h2 o ho hne)
    · rintro (⟨f, hf, hrel⟩ | ⟨o, ho, hne, hrel⟩) ⟨_, hA, hB⟩
      · rw [hA f hf] at hrel; cases hrel
      · rw [hB o ho hne] at hrel; cases hrel
  · intro d hd d' hd' hne
    rw [mem_pruneCreate_iff] at hd
    have hd'raw : d' ∈ dirsRaw := (mem_pruneCreate_iff.mp hd').1
    exact hd.2.2 d' hd'raw (Ne.symm hne)

theorem createPruning_correct_witness :
    ([("x" : String)] ∉ pruneCreate [["x"], ["x", "y"]] []) ∧
    (["b"] ∉ pruneCreate [["b"]] [["b", "c.txt"]]) := by
  constructor
  · have h := (createPruning_correct [["x"], ["x", "y"]] []).1 ["x"] (by decide)
    exact h.mpr (Or.inr ⟨["x", "y"], by decide, by decide, by decide⟩)
  · have h := (createPruning_correct [["b"]] [["b", "c.txt"]]).1 ["b"] (by decide)
    exact h.mpr (Or.inl ⟨["b", "c.txt"], by decide, by decide⟩)

/-- **C5.** A raw `dirsToDelete` entry is dropped iff another raw entry is a
proper ancestor of it; a file marked delete is dropped iff it lies under a
directory surviving the directory pruning; hence no file of the final
`filesToDelete` lies under any directory of the final `dirsToDelete`. -/
theorem deletePruning_correct (dirsRaw filesDel : List RPath) :
    (∀ d ∈ dirsRaw, (d ∉ pruneDeleteDirs dirsRaw ↔
      ∃ o ∈ dirsRaw, o ≠ d ∧ isRelativeTo d o = true)) ∧
    (∀ f ∈ filesDel,
      (f ∉ pruneDeleteFiles filesDel (pruneDeleteDirs dirsRaw) ↔
        ∃ dir ∈ pruneDeleteDirs dirsRaw, isRelativeTo f dir = true)) ∧
    (∀ f ∈ pruneDeleteFiles filesDel (pruneDeleteDirs dirsRaw),
      ∀ dir ∈ pruneDeleteDirs dirsRaw, isRelativeTo f dir = false) := by
  refine ⟨?_, ?_, ?_⟩
  · intro d hd
    rw [mem_pruneDeleteDirs_iff]
    constructor
    · intro hdrop
      by_contra hno
      push_neg at hno
      refine hdrop ⟨hd, fun o ho hne => ?_⟩
      cases hb : isRelativeTo d o
      · rfl
      · exact absurd hb (hno o ho hne)
    · rintro ⟨o, ho, hne, hrel⟩ ⟨_, hB⟩
      rw [hB o ho hne] at hrel; cases hrel
  · intro f hf
    rw [mem_pruneDeleteFiles_iff]
    constructor
    · intro hdrop
      by_contra hno
      push_neg at hno
      refine hdrop ⟨hf, fun dir hdir => ?_⟩
      cases hb : isRelativeTo f dir
      · rfl
      · exact absurd hb (hno dir hdir)
    · rintro ⟨dir, hdir, hrel⟩ ⟨_, hB⟩
      rw [hB dir hdir] at hrel; cases hrel
  · intro f hf dir hdir
    exact (mem_pruneDeleteFiles_iff.mp hf).2 dir hdir

theorem deletePruning_correct_witness :
    ([("a" : String), "b"] ∉ pruneDeleteDirs [["a"], ["a", "b"]]) ∧
    (["a", "c.txt"] ∉
      pruneDeleteFiles [["a", "c.txt"]] (pruneDeleteDirs [["a"], ["a", "b"]])) := by
  constructor
  · have h := (deletePruning_correct [["a"], ["a", "b"]] []).1 ["a", "b"] (by decide)
    exact h.mpr ⟨["a"], by decide, by decide, by decide⟩
  · have h := (deletePruning_correct [["a"], ["a", "b"]] [["a", "c.txt"]]).2.1
      ["a", "c.txt"] (by decide)
    exact h.mpr ⟨["a"], by decide, by decide⟩

/-! ## Remote operation executor (synk.py, lines 264-274) -/

/-- One remote operation scheduled by `push`. -/
inductive Cmd where
  | deleteDir (p : RPath)
  | deleteFile (p : RPath)
  | makeDir (p : RPath)
  | upload (p : RPath)
deriving Repr, DecidableEq

/-- `delete_dir` / `delete` calls (the delete phase). -/
def Cmd.isDeleteOp : Cmd → Bool
  | .deleteDir _ => true
  | .deleteFile _ => true
  | _ => false

/-- `make_dir` / `upload` calls (the create phase). -/
def Cmd.isCreateOp : Cmd → Bool
  | .makeDir _ => true
  | .upload _ => true
  | _ => false

/-- Lines 264-274: the executor issues the four lists in the fixed order
delete directories, delete files, create directories, upload files. -/
def execOrder (ops : OperationSet) : List Cmd :=
  ops.dirsToDelete.map Cmd.deleteDir ++ ops.filesToDelete.map Cmd.deleteFile ++
  ops.dirsToCreate.map Cmd.makeDir ++ ops.filesToPush.map Cmd.upload

theorem cmd_not_delete_and_create (c : Cmd) :
    ¬(c.isDeleteOp = true ∧ c.isCreateOp = true) := by
  cases c <;> simp [Cmd.isDeleteOp, Cmd.isCreateOp]

/-- **C6.** In the executor's command sequence, every delete operation
comes strictly before every create-directory or upload operation: a
create-phase command at position `i` and a delete-phase command at
position `j` always satisfy `j < i`. -/
theorem exec_deletes_before_creates (ops : OperationSet) (i j : Nat)
    (hi : i < (execOrder ops).length) (hj : j < (execOrder ops).length)
    (hci : ((execOrder ops).get ⟨i, hi⟩).isCreateOp = true)
    (hdj : ((execOrder ops).get ⟨j, hj⟩).isDeleteOp = true) : j < i := by
  have hsplit : execOrder ops =
      (ops.dirsToDelete.map Cmd.deleteDir ++ ops.filesToDelete.map Cmd.deleteFile) ++
      (ops.dirsToCreate.map Cmd.makeDir ++ ops.filesToPush.map Cmd.upload) := by
    simp [execOrder]
  set A := ops.dirsToDelete.map Cmd.deleteDir ++ ops.filesToDelete.map Cmd.deleteFile
    with hA
  set B := ops.dirsToCreate.map Cmd.makeDir ++ ops.filesToPush.map Cmd.upload with hB
  have hAdel : ∀ c ∈ A, c.isDeleteOp = true := by
    intro c hc
    rcases List.mem_append.mp hc with h | h <;>
      obtain ⟨p, _, rfl⟩ := List.mem_map.mp h <;> rfl
  have hBcre : ∀ c ∈ B, c.isCreateOp = true := by
    intro c hc
    rcases List.mem_append.mp hc with h | h <;>
      obtain ⟨p, _, rfl⟩ := List.mem_map.mp h <;> rfl
  have hlen : (execOrder ops).length = (A ++ B).length := by rw [hsplit]
  have hi2 : i < (A ++ B).length := hlen ▸ hi
  have hj2 : j < (A ++ B).length := hlen ▸ hj
  have hgi : (execOrder ops).get ⟨i, hi⟩ = (A ++ B)[i] := by
    simp only [List.get_eq_getElem]
    congr 1
  have hgj : (execOrder ops).get ⟨j, hj⟩ = (A ++ B)[j] := by
    simp only [List.get_eq_getElem]
    congr 1
  have hiA : ¬ i < A.length := by
    intro hlt
    have hL : (A ++ B)[i] = A[i] := List.getElem_append_left hlt
    have hmem : A[i] ∈ A := List.getElem_mem hlt
    have hdel := hAdel _ hmem
    rw [hgi, hL] at hci
    exact cmd_not_delete_and_create _ ⟨hdel, hci⟩
  have hjA : j < A.length := by
    by_contra hge
    push_neg at hge
    have hjb : j - A.length < B.length := by
      have h3 := hlen ▸ hj
      rw [List.length_append] at h3
      omega
    have hR : (A ++ B)[j] = B[j - A.length] := List.getElem_append_right hge
    have hmem : B[j - A.length] ∈ B := List.getElem_mem hjb
    have hcre := hBcre _ hmem
    rw [hgj, hR] at hdj
    exact cmd_not_delete_and_create _ ⟨hdj, hcre⟩
  omega

theorem exec_deletes_before_creates_witness : (1 : Nat) < 2 :=
  exec_deletes_before_creates ⟨[["u"]], [["f"]], [], [["d"]]⟩ 2 1
    (by decide) (by decide) (by decide) (by decide)

/-! ## The push run: index write, connection, execution (lines 178-278) -/

/-- An observable step of a `push` run. -/
inductive PushEvent where
  | writeIndex (snap : Snapshot)
  | connectAttempt
  | remote (c : Cmd)
deriving Repr, DecidableEq

/-- Outcome of one `push` invocation: its event sequence, the contents of
`index.json` afterwards, and whether the run completed (a failed
connection makes `FTPClient.connect` print and `exit(1)`). -/
structure PushResult where
  events : List PushEvent
  indexStore : Option Snapshot
  ok : Bool
deriving Repr, DecidableEq

/-- `push` (lines 178-278): diff current scan against the stored index,
overwrite `index.json` with the current snapshot (lines 228-229), prune
(lines 231-258), connect (lines 260-262) and execute (lines 264-274).
`connectOk` abstracts whether the FTP connection is established. -/
def pushRun (cur : Snapshot) (stored : Option Snapshot) (connectOk : Bool) :
    PushResult :=
  let plan := computePlan cur stored
  if connectOk then
    { events := PushEvent.writeIndex cur :: PushEvent.connectAttempt ::
        (execOrder plan).map PushEvent.remote
      indexStore := some cur
      ok := true }
  else
    { events := [PushEvent.writeIndex cur, PushEvent.connectAttempt]
      indexStore := some cur
      ok := false }

/-- **C1.** Bug evidence: `push` overwrites `index.json` (line 228) before
the connection attempt (line 262).  With stored snapshot `{a.txt ↦ h1}`,
local state `{a.txt ↦ h2}` and a refused connection, the run fails yet
the snapshot store already holds the new snapshot, not the previous one. -/
theorem index_overwritten_despite_failed_connect :
    (pushRun ⟨[(["a.txt"], "h2")], []⟩ (some ⟨[(["a.txt"], "h1")], []⟩) false).ok
        = false ∧
    (pushRun ⟨[(["a.txt"], "h2")], []⟩ (some ⟨[(["a.txt"], "h1")], []⟩)
        false).indexStore = some ⟨[(["a.txt"], "h2")], []⟩ ∧
    (⟨[(["a.txt"], "h2")], []⟩ : Snapshot) ≠ ⟨[(["a.txt"], "h1")], []⟩ ∧
    (pushRun ⟨[(["a.txt"], "h2")], []⟩ (some ⟨[(["a.txt"], "h1")], []⟩)
        false).events =
      [PushEvent.writeIndex ⟨[(["a.txt"], "h2")], []⟩,
       PushEvent.connectAttempt] := by
  refine ⟨rfl, rfl, ?_, rfl⟩
  intro h
  have := congrArg Snapshot.files h
  simp at this

/-! ## C8: idempotence of push -/

theorem filesToPushList_self (m : FileMap) : filesToPushList m m = [] := by
  rw [filesToPushList]
  apply List.filter_eq_nil_iff.mpr
  intro f hf
  have hc : containsKey m f = true := containsKey_iff.mpr hf
  simp [hc, bne_self_eq_false]

theorem filesToDeleteList_self (m : FileMap) : filesToDeleteList m m = [] := by
  rw [filesToDeleteList]
  apply List.filter_eq_nil_iff.mpr
  intro f hf
  have hc : containsKey m f = true := containsKey_iff.mpr hf
  simp [hc]

theorem dirsToCreateRaw_self (ds : List RPath) : dirsToCreateRaw ds ds = [] := by
  rw [dirsToCreateRaw]
  apply List.filter_eq_nil_iff.mpr
  intro d hd
  simpa using hd

theorem dirsToDeleteRaw_self (ds : List RPath) : dirsToDeleteRaw ds ds = [] := by
  rw [dirsToDeleteRaw]
  apply List.filter_eq_nil_iff.mpr
  intro d hd
  simpa using hd

theorem computePlan_self (cur : Snapshot) :
    computePlan cur (some cur) = ⟨[], [], [], []⟩ := by
  simp [computePlan, rawOps, filesToPushList_self, filesToDeleteList_self,
    dirsToCreateRaw_self, dirsToDeleteRaw_self, pruneCreate, pruneDeleteDirs,
    pruneDeleteFiles]

/-- **C8.** A successful push stores the current snapshot in `index.json`;
a second push with unchanged local state therefore diffs the snapshot
against itself, producing an operation set whose four lists are all empty
and issuing no remote command at all. -/
theorem push_idempotent (cur : Snapshot) (stored : Option Snapshot) :
    (pushRun cur stored true).indexStore = some cur ∧
    computePlan cur (some cur) = ⟨[], [], [], []⟩ ∧
    (pushRun cur (some cur) true).events =
      [PushEvent.writeIndex cur, PushEvent.connectAttempt] := by
  refine ⟨by simp [pushRun], computePlan_self cur, ?_⟩
  simp [pushRun, computePlan_self, execOrder]

/-! ## C4: Scenario A -/

/-- Scenario A: local tree `{a.txt, b/c.txt}`, no previous index. -/
def scenarioACur : Snapshot :=
  ⟨[(["a.txt"], "h1"), (["b", "c.txt"], "h2")], [["b"]]⟩

/-- **C4 counterexample.** The claimed operation set has
`dirsToCreate = {b}`, but the code prunes `b` (the upload of `b/c.txt`
lies inside it, line 235), so `b` is not in the computed `dirsToCreate`. -/
theorem scenarioA_claim_false :
    ["b"] ∉ (computePlan scenarioACur none).dirsToCreate := by decide

/-- **C4 (amended).** With an empty previous snapshot and local tree
`{a.txt, b/c.txt}`, the computed operation set uploads `a.txt` and
`b/c.txt`, deletes nothing, and creates no directory: `b` is pruned from
`dirsToCreate` because the upload of `b/c.txt` lies within it (the upload
step creates `b` as a side effect). -/
theorem scenarioA_amended :
    computePlan scenarioACur none =
      ⟨[["a.txt"], ["b", "c.txt"]], [], [], []⟩ := by decide

/-! ## C10: `ensure_remote_dirs` and `make_dir` (synk.py, lines 70-81) -/

/-- A remote failure as `ftplib` raises it. -/
inductive FtpErr where
  | errorPerm
deriving Repr, DecidableEq

/-- `ensure_remote_dirs` (lines 74-81): `dirs = Path(p).parent.parts`; for
`i` in `1..len(dirs)` attempt `mkd` on the prefix of length `i`, root to
leaf. -/
def ensureRemoteDirsTrace (p : RPath) : List RPath :=
  (List.range p.dropLast.length).map fun i => p.dropLast.take (i + 1)

/-- `make_dir` (lines 70-72): the `mkd` attempts of `ensure_remote_dirs`
followed by the final `mkd p`. -/
def makeDirCmds (p : RPath) : List RPath := ensureRemoteDirsTrace p ++ [p]

/-- `try: self.ftps.mkd(path) / except Exception: pass` (lines 78-81): the
outcome of the attempt is swallowed. -/
def tryIgnore (x : Except FtpErr Unit) : Except FtpErr Unit :=
  match x with
  | .ok () => .ok ()
  | .error _ => .ok ()

/-- The overall outcome of `make_dir p` against a remote that answers
`mkd q` with `resp q`: each ancestor attempt is run with its failure
ignored, then the final `mkd p` is issued (line 72), uncaught. -/
def makeDirResult (resp : RPath → Except FtpErr Unit) (p : RPath) :
    Except FtpErr Unit :=
  ((ensureRemoteDirsTrace p).foldl (fun _ q => tryIgnore (resp q))
    (Except.ok ())).bind fun _ => resp p

/-- All `mkd` commands issued while executing a plan: `make_dir` for every
directory to create (lines 270-271), then the `ensure_remote_dirs` prelude
of every upload (lines 29-32, 273-274). -/
def mkdAttempts (ops : OperationSet) : List RPath :=
  (ops.dirsToCreate.flatMap makeDirCmds) ++
  ops.filesToPush.flatMap ensureRemoteDirsTrace

theorem prefix_length_lt {q p : RPath} (h : q <+: p) (hne : q ≠ p) :
    q.length < p.length := by
  rcases Nat.lt_or_ge q.length p.length with hlt | hge
  · exact hlt
  · exact absurd (h.eq_of_length (Nat.le_antisymm h.length_le hge)) hne

theorem mem_ensureRemoteDirsTrace {p q : RPath} :
    q ∈ ensureRemoteDirsTrace p ↔ q ≠ [] ∧ q <+: p ∧ q ≠ p := by
  rw [ensureRemoteDirsTrace]
  constructor
  · intro hq
    obtain ⟨i, hi, rfl⟩ := List.mem_map.mp hq
    rw [List.mem_range] at hi
    have hlen : (p.dropLast.take (i + 1)).length = i + 1 := by
      rw [List.length_take]
      omega
    refine ⟨?_, ?_, ?_⟩
    · intro hnil
      rw [hnil] at hlen
      simp at hlen
    · exact (List.take_prefix _ _).trans (List.dropLast_prefix p)
    · intro heq
      have hp : p.length = i + 1 := by rw [← heq, hlen]
      have hd : p.dropLast.length = p.length - 1 := List.length_dropLast p
      omega
  · rintro ⟨hnil, hpre, hne⟩
    have hlt : q.length < p.length := prefix_length_lt hpre hne
    have hpos : 1 ≤ q.length := by
      cases q with
      | nil => exact absurd rfl hnil
      | cons a as => simp
    refine List.mem_map.mpr ⟨q.length - 1, ?_, ?_⟩
    · rw [List.mem_range, List.length_dropLast]
      omega
    · have h1 : q.length - 1 + 1 = q.length := by omega
      rw [h1, List.dropLast_eq_take, List.take_take]
      have h2 : min q.length (p.length - 1) = q.length := by omega
      rw [h2]
      exact (List.prefix_iff_eq_take.mp hpre).symm

theorem ensureRemoteDirsTrace_sorted {p : RPath} {i j : Nat}
    (hi : i < (ensureRemoteDirsTrace p).length)
    (hj : j < (ensureRemoteDirsTrace p).length) (hij : i ≤ j) :
    (ensureRemoteDirsTrace p).get ⟨i, hi⟩ <+:
      (ensureRemoteDirsTrace p).get ⟨j, hj⟩ := by
  have hi' : i < (List.range p.dropLast.length).length := by
    simpa [ensureRemoteDirsTrace] using hi
  have hj' : j < (List.range p.dropLast.length).length := by
    simpa [ensureRemoteDirsTrace] using hj
  have hgi : (ensureRemoteDirsTrace p).get ⟨i, hi⟩ = p.dropLast.take (i + 1) := by
    simp [ensureRemoteDirsTrace]
  have hgj : (ensureRemoteDirsTrace p).get ⟨j, hj⟩ = p.dropLast.take (j + 1) := by
    simp [ensureRemoteDirsTrace]
  rw [hgi, hgj]
  have : (p.dropLast.take (j + 1)).take (i + 1) = p.dropLast.take (i + 1) := by
    rw [List.take_take]
    congr 1
    omega
  rw [← this]
  exact List.take_prefix _ _

theorem makeDirResult_eq (resp : RPath → Except FtpErr Unit) (p : RPath) :
    makeDirResult resp p = resp p := by
  rw [makeDirResult]
  have : ∀ (l : List RPath) (st : Except FtpErr Unit), st = Except.ok () →
      l.foldl (fun _ q => tryIgnore (resp q)) st = Except.ok () := by
    intro l
    induction l with
    | nil => intro st h; simpa using h
    | cons a rest ih =>
      intro st h
      rw [List.foldl_cons]
      apply ih
      rcases resp a with e | u
      · rfl
      · rfl
  rw [this (ensureRemoteDirsTrace p) (Except.ok ()) rfl]
  rfl

theorem rawDirsToCreate_subset {cur : Snapshot} {old : Option Snapshot} :
    ∀ d ∈ (rawOps cur old).dirsToCreate, d ∈ cur.dirs := by
  intro d hd
  cases old with
  | none => exact hd
  | some o => exact (List.mem_filter.mp hd).1

theorem rawFilesToPush_subset {cur : Snapshot} {old : Option Snapshot} :
    ∀ f ∈ (rawOps cur old).filesToPush, f ∈ cur.files.map Prod.fst := by
  intro f hf
  cases old with
  | none => exact hf
  | some o => exact (List.mem_filter.mp hf).1

/-- Every directory of the raw create diff receives an `mkd` attempt when
the pruned plan is executed: kept directories get their own `make_dir`,
and dropped ones are materialised as ancestors either of a kept deeper
directory or of an uploaded file. -/
theorem rawDir_mem_mkdAttempts (cur : Snapshot) (old : Option Snapshot)
    (hdirs : ∀ d ∈ cur.dirs, d ≠ [])
    (hfd : ∀ f ∈ cur.files.map Prod.fst, ∀ d ∈ cur.dirs, f ≠ d) :
    ∀ d ∈ (rawOps cur old).dirsToCreate, d ∈ mkdAttempts (computePlan cur old) := by
  intro d hd
  set raw := (rawOps cur old).dirsToCreate with hraw
  set fup := (rawOps cur old).filesToPush with hfup
  have hplanD : (computePlan cur old).dirsToCreate = pruneCreate raw fup := rfl
  have hplanF : (computePlan cur old).filesToPush = fup := rfl
  -- the set of raw entries extending d, and a longest one among them
  set S := raw.filter (fun e => isRelativeTo e d) with hS
  have hdS : d ∈ S := by
    rw [hS]
    refine List.mem_filter.mpr ⟨hd, ?_⟩
    exact isRelativeTo_iff.mpr (List.prefix_refl d)
  obtain ⟨m, hm⟩ : ∃ m, m ∈ S.argmax List.length := by
    rcases ha : S.argmax List.length with _ | m
    · rw [List.argmax_eq_none] at ha
      rw [ha] at hdS
      cases hdS
    · exact ⟨m, rfl⟩
  have hmS : m ∈ S := List.argmax_mem hm
  have hmraw : m ∈ raw := (List.mem_filter.mp hmS).1
  have hdm : d <+: m := by
    have := (List.mem_filter.mp hmS).2
    rwa [isRelativeTo_iff] at this
  have hmax : ∀ e ∈ S, e.length ≤ m.length := fun e he =>
    List.le_of_mem_argmax he hm
  have hdne : d ≠ [] := hdirs d (rawDirsToCreate_subset d hd)
  -- d is an mkd attempt as soon as some kept directory or pushed file
  -- properly extends it
  have handle : ∀ x : RPath, d <+: x → d ≠ x →
      (x ∈ pruneCreate raw fup ∨ x ∈ fup) → d ∈ mkdAttempts (computePlan cur old) := by
    intro x hdx hnex hx
    have hmemtr : d ∈ ensureRemoteDirsTrace x :=
      mem_ensureRemoteDirsTrace.mpr ⟨hdne, hdx, hnex⟩
    rw [mkdAttempts, List.mem_append]
    rcases hx with hkept | hfile
    · left
      rw [hplanD]
      refine List.mem_flatMap.mpr ⟨x, hkept, ?_⟩
      rw [makeDirCmds, List.mem_append]
      exact Or.inl hmemtr
    · right
      rw [hplanF]
      exact List.mem_flatMap.mpr ⟨x, hfile, hmemtr⟩
  by_cases hkeep : m ∈ pruneCreate raw fup
  · by_cases hdm' : d = m
    · -- d itself survives pruning: its own make_dir issues mkd d
      rw [mkdAttempts, List.mem_append]
      left
      rw [hplanD]
      refine List.mem_flatMap.mpr ⟨m, hkeep, ?_⟩
      rw [makeDirCmds, List.mem_append]
      right
      rw [hdm']
      exact List.mem_singleton.mpr rfl
    · exact handle m hdm hdm' (Or.inl hkeep)
  · -- m was dropped: by C3 either a pushed file or a deeper raw entry
    -- extends it; the latter contradicts maximality of m
    have hdrop := ((createPruning_correct raw fup).1 m hmraw).mp hkeep
    rcases hdrop with ⟨f, hflist, hrel⟩ | ⟨o, horaw, hone, horel⟩
    · have hmf : m <+: f := by
        rwa [isRelativeTo, List.isPrefixOf_iff_prefix] at hrel
      have hdf : d <+: f := hdm.trans hmf
      have hfcur : f ∈ cur.files.map Prod.fst := rawFilesToPush_subset f hflist
      have hdnef : d ≠ f :=
        fun he => hfd f hfcur d (rawDirsToCreate_subset d hd) he.symm
      exact handle f hdf hdnef (Or.inr hflist)
    · exfalso
      have hmo : m <+: o := by
        rwa [isRelativeTo_iff] at horel
      have hoS : o ∈ S := by
        rw [hS]
        refine List.mem_filter.mpr ⟨horaw, ?_⟩
        exact isRelativeTo_iff.mpr (hdm.trans hmo)
      have hlt : m.length < o.length := prefix_length_lt hmo (Ne.symm hone)
      have := hmax o hoS
      omega

/-- **C10.** `make_dir p` attempts exactly the non-empty proper ancestors
of `p`, in root-to-leaf order, swallows their failures, and finishes with
`mkd p` whose outcome is the result of the whole call; consequently every
directory of the raw create diff — including those the pruning dropped —
receives an `mkd` command when the pruned plan is executed. -/
theorem makeDir_materialises_ancestors (p : RPath)
    (resp : RPath → Except FtpErr Unit) (cur : Snapshot) (old : Option Snapshot)
    (hdirs : ∀ d ∈ cur.dirs, d ≠ [])
    (hfd : ∀ f ∈ cur.files.map Prod.fst, ∀ d ∈ cur.dirs, f ≠ d) :
    (∀ q, q ∈ ensureRemoteDirsTrace p ↔ q ≠ [] ∧ q <+: p ∧ q ≠ p) ∧
    (∀ i j (hi : i < (ensureRemoteDirsTrace p).length)
        (hj : j < (ensureRemoteDirsTrace p).length), i ≤ j →
        (ensureRemoteDirsTrace p).get ⟨i, hi⟩ <+:
          (ensureRemoteDirsTrace p).get ⟨j, hj⟩) ∧
    makeDirCmds p = ensureRemoteDirsTrace p ++ [p] ∧
    makeDirResult resp p = resp p ∧
    (∀ d ∈ (rawOps cur old).dirsToCreate, d ∈ mkdAttempts (computePlan cur old)) :=
  ⟨fun _ => mem_ensureRemoteDirsTrace,
   fun _ _ hi hj hij => ensureRemoteDirsTrace_sorted hi hj hij,
   rfl,
   makeDirResult_eq resp p,
   rawDir_mem_mkdAttempts cur old hdirs hfd⟩

theorem makeDir_materialises_ancestors_witness :
    ["b"] ∈ mkdAttempts (computePlan scenarioACur none) :=
  (makeDir_materialises_ancestors ["a", "b", "c"] (fun _ => Except.ok ())
    scenarioACur none (by decide) (by decide)).2.2.2.2 ["b"] (by decide)

/-! ## C9: the content hasher (synk.py, lines 151-165) -/

/-- The chunks successively returned by `f.read(8192)` in the
`while chunk := f.read(8192)` loop (lines 158-160): maximal slices of
8192 bytes; the loop stops when a read returns an empty chunk. -/
def readChunks (bs : List Nat) : List (List Nat) :=
  if h : bs = [] then [] else bs.take 8192 :: readChunks (bs.drop 8192)
termination_by bs.length
decreasing_by
  rw [List.length_drop]
  have hpos : 0 < bs.length := List.length_pos.mpr h
  omega

/-- A `hashlib` hasher state: the byte sequence fed so far.  (`hashlib`
specifies `m.update(a); m.update(b)` to be equivalent to
`m.update(a + b)`.) -/
structure HashState where
  fed : List Nat
deriving Repr, DecidableEq

/-- `h.update(chunk)` (line 160). -/
def update (s : HashState) (chunk : List Nat) : HashState := ⟨s.fed ++ chunk⟩

/-- `h.hexdigest()` (line 163) under an arbitrary digest function `H` of
the accumulated bytes (SHA-256 in the source). -/
def digestOf (H : List Nat → Nat) (s : HashState) : Nat := H s.fed

/-- Lines 155-163: fresh hasher, one `update` per chunk of the file's
bytes, then the digest. -/
def fileDigest (H : List Nat → Nat) (bs : List Nat) : Nat :=
  digestOf H ((readChunks bs).foldl update ⟨[]⟩)

theorem foldl_update_readChunks (bs : List Nat) :
    ∀ s : HashState, (readChunks bs).foldl update s = ⟨s.fed ++ bs⟩ := by
  induction bs using readChunks.induct with
  | case1 =>
    intro s
    simp [readChunks]
  | case2 bs h ih =>
    intro s
    rw [readChunks, dif_neg h, List.foldl_cons, ih]
    rw [update]
    simp

/-- **C9.** The incremental digest over 8192-byte chunks equals the digest
of one single `update` with the whole byte sequence, for every digest
function of the accumulated bytes; hence two files with identical bytes
always get identical digests, regardless of length. -/
theorem chunkedHash_eq_singlePass (H : List Nat → Nat) (bs bs' : List Nat) :
    fileDigest H bs = digestOf H (update ⟨[]⟩ bs) ∧
    fileDigest H bs = H bs ∧
    (bs = bs' → fileDigest H bs = fileDigest H bs') := by
  have h1 : fileDigest H bs = H bs := by
    rw [fileDigest, foldl_update_readChunks, digestOf]
    simp
  refine ⟨?_, h1, fun he => by rw [he]⟩
  rw [h1, digestOf, update]
  simp

theorem chunkedHash_eq_singlePass_witness :
    fileDigest List.length [7, 7, 7] = fileDigest List.length [7, 7, 7] :=
  (chunkedHash_eq_singlePass List.length [7, 7, 7] [7, 7, 7]).2.2 rfl

/-! ## C7: recursive delete fallback (synk.py, lines 41-68)

The client's `delete_dir`/`recursive_delete` run against a remote whose
own code is outside the reconciliation core (the repository's server
component is an SFTP stub).  The remote endpoint is therefore modelled
from the spec (sections 4.5 and 6): a flat listing of existing file and
directory paths, `deleteFile`/`deleteDirectory` primitives answering
`error_perm` for a missing target or a non-empty directory, and a child
listing returning the base names of a directory's immediate entries. -/

/-- Modelled from the spec: the remote endpoint's state (spec section 6),
the sets of file paths and directory paths that currently exist
remotely. -/
structure RemoteFS where
  rfiles : List RPath
  rdirs : List RPath
deriving Repr, DecidableEq

/-- All remote entries, directories first. -/
def RemoteFS.entries (fs : RemoteFS) : List RPath := fs.rdirs ++ fs.rfiles

/-- `q` lies strictly below `p`. -/
def strictlyUnder (q p : RPath) : Bool := isRelativeTo q p && q != p

/-- The base names of the immediate children of `p`. -/
def childNames (fs : RemoteFS) (p : RPath) : List String :=
  fs.entries.filterMap fun q =>
    if q.length == p.length + 1 && isRelativeTo q p then q.getLast? else none

/-- Modelled from the spec: `deleteFile` deletes an existing file; a
directory or missing path answers `error_perm`. -/
def deleteFileOp (fs : RemoteFS) (p : RPath) : Except FtpErr RemoteFS :=
  if fs.rfiles.contains p then
    Except.ok ⟨fs.rfiles.filter (fun q => q != p), fs.rdirs⟩
  else Except.error FtpErr.errorPerm

/-- Whether directory `p` has no entry strictly below it. -/
def noChildren (fs : RemoteFS) (p : RPath) : Bool :=
  !(fs.entries.any fun q => strictlyUnder q p)

/-- Modelled from the spec: `deleteDirectory` removes an existing empty
directory; a non-empty directory (the spec's "not empty" condition) or a
missing one answers `error_perm`. -/
def rmdOp (fs : RemoteFS) (p : RPath) : Except FtpErr RemoteFS :=
  if fs.rdirs.contains p then
    if noChildren fs p then
      Except.ok ⟨fs.rfiles, fs.rdirs.filter (fun q => q != p)⟩
    else Except.error FtpErr.errorPerm
  else Except.error FtpErr.errorPerm

/-- `nlst` as `recursive_delete` consumes it (lines 50-54): the child
listing, with the client's `except error_perm: items = []` for a missing
directory. -/
def nlstOp (fs : RemoteFS) (p : RPath) : List String :=
  if fs.rdirs.contains p then childNames fs p else []

/-- Remote calls observed while `delete_dir` runs: child listings, `DELE`
attempts and `RMD` attempts, each with its outcome. -/
inductive DelEv where
  | nlst (p : RPath) (items : List String)
  | dele (p : RPath) (ok : Bool)
  | rmd (p : RPath) (ok : Bool)
deriving Repr, DecidableEq

mutual

/-- `recursive_delete` (lines 48-68): list the directory, process each
item — delete it as a file, and on `error_perm` recurse into it as a
directory — then delete the now-empty directory itself (line 68,
uncaught).  `fuel` bounds the recursion depth. -/
def recursiveDelete : Nat → RemoteFS → RPath → List DelEv × Except FtpErr RemoteFS
  | 0, _, _ => ([], Except.error FtpErr.errorPerm)
  | fuel + 1, fs, p =>
    match delChildren fuel fs p (nlstOp fs p) with
    | (evs, Except.ok fs') =>
      match rmdOp fs' p with
      | Except.ok fs'' =>
        (DelEv.nlst p (nlstOp fs p) :: evs ++ [DelEv.rmd p true], Except.ok fs'')
      | Except.error e =>
        (DelEv.nlst p (nlstOp fs p) :: evs ++ [DelEv.rmd p false], Except.error e)
    | (evs, Except.error e) => (DelEv.nlst p (nlstOp fs p) :: evs, Except.error e)
termination_by fuel => (fuel, 0)

/-- The `for item in items` loop of `recursive_delete` (lines 56-65): skip
the directory itself, try `delete`, recurse on `error_perm`. -/
def delChildren : Nat → RemoteFS → RPath → List String →
    List DelEv × Except FtpErr RemoteFS
  | _, fs, _, [] => ([], Except.ok fs)
  | fuel, fs, p, item :: rest =>
    if p = [item] then delChildren fuel fs p rest
    else
      match deleteFileOp fs (p ++ [item]) with
      | Except.ok fs' =>
        let r := delChildren fuel fs' p rest
        (DelEv.dele (p ++ [item]) true :: r.1, r.2)
      | Except.error _ =>
        match recursiveDelete fuel fs (p ++ [item]) with
        | (evs, Except.ok fs') =>
          let r := delChildren fuel fs' p rest
          (DelEv.dele (p ++ [item]) false :: (evs ++ r.1), r.2)
        | (evs, Except.error e) =>
          (DelEv.dele (p ++ [item]) false :: evs, Except.error e)
termination_by fuel _ _ items => (fuel, items.length + 1)

end

/-- `delete_dir` (lines 41-46): try the plain `rmd`; on `error_perm` (and
only on that condition) fall back to `recursive_delete`. -/
def deleteDirRun (fuel : Nat) (fs : RemoteFS) (p : RPath) :
    List DelEv × Except FtpErr RemoteFS :=
  match rmdOp fs p with
  | Except.ok fs' => ([DelEv.rmd p true], Except.ok fs')
  | Except.error _ =>
    let r := recursiveDelete fuel fs p
    (DelEv.rmd p false :: r.1, r.2)

/-- Well-formed remote state: entries are non-empty paths, the file and
directory listings are duplicate-free and disjoint, and every proper
non-empty prefix of an entry is itself a directory entry. -/
def WFRemote (fs : RemoteFS) : Prop :=
  (∀ q ∈ fs.entries, q ≠ []) ∧
  fs.rfiles.Nodup ∧
  fs.rdirs.Nodup ∧
  (∀ q ∈ fs.rfiles, q ∉ fs.rdirs) ∧
  (∀ q ∈ fs.entries, ∀ i ∈ List.range q.length, 0 < i → q.take i ∈ fs.rdirs)

/-- `fs` with every entry at or below `p` removed. -/
def removeSubtree (fs : RemoteFS) (p : RPath) : RemoteFS :=
  ⟨fs.rfiles.filter (fun q => !isRelativeTo q p),
   fs.rdirs.filter (fun q => !isRelativeTo q p)⟩

/-- `fs` with every entry at or below one of the `ps` removed. -/
def removeSubtrees (fs : RemoteFS) (ps : List RPath) : RemoteFS :=
  ⟨fs.rfiles.filter (fun q => !(ps.any fun c => isRelativeTo q c)),
   fs.rdirs.filter (fun q => !(ps.any fun c => isRelativeTo q c))⟩

/-! ### Path and listing lemmas for the recursive delete -/

theorem contains_iff_mem {l : List RPath} {x : RPath} :
    l.contains x = true ↔ x ∈ l := by
  simp

theorem isRelativeTo_refl (p : RPath) : isRelativeTo p p = true :=
  isRelativeTo_iff.mpr (List.prefix_refl p)

theorem isRelativeTo_child (p : RPath) (n : String) :
    isRelativeTo (p ++ [n]) p = true :=
  isRelativeTo_iff.mpr (List.prefix_append p [n])

theorem isRelativeTo_false_of_lt {q r : RPath} (h : q.length < r.length) :
    isRelativeTo q r = false := by
  cases hb : isRelativeTo q r
  · rfl
  · have := (isRelativeTo_iff.mp hb).length_le
    omega

theorem not_isRelativeTo_self_child (p : RPath) (n : String) :
    isRelativeTo p (p ++ [n]) = false := by
  apply isRelativeTo_false_of_lt
  rw [List.length_append]
  simp

theorem isRelativeTo_trans {q c p : RPath} (h1 : isRelativeTo q c = true)
    (h2 : isRelativeTo c p = true) : isRelativeTo q p = true :=
  isRelativeTo_iff.mpr ((isRelativeTo_iff.mp h2).trans (isRelativeTo_iff.mp h1))

theorem eq_of_isRelativeTo_length {q r : RPath} (h : isRelativeTo q r = true)
    (hl : q.length = r.length) : q = r :=
  ((isRelativeTo_iff.mp h).eq_of_length hl.symm).symm

theorem strictlyUnder_iff {q p : RPath} :
    strictlyUnder q p = true ↔ isRelativeTo q p = true ∧ q ≠ p := by
  rw [strictlyUnder, Bool.and_eq_true, bne_iff_ne]

theorem mem_entries_left {fs : RemoteFS} {q : RPath} (h : q ∈ fs.rdirs) :
    q ∈ fs.entries := List.mem_append.mpr (Or.inl h)

theorem mem_entries_right {fs : RemoteFS} {q : RPath} (h : q ∈ fs.rfiles) :
    q ∈ fs.entries := List.mem_append.mpr (Or.inr h)

theorem mem_childNames_iff {fs : RemoteFS} {p : RPath} {n : String} :
    n ∈ childNames fs p ↔ p ++ [n] ∈ fs.entries := by
  rw [childNames, List.mem_filterMap]
  constructor
  · rintro ⟨q, hq, hfq⟩
    by_cases hc : (q.length == p.length + 1 && isRelativeTo q p) = true
    · rw [if_pos hc] at hfq
      rw [Bool.and_eq_true, beq_iff_eq] at hc
      obtain ⟨t, rfl⟩ := isRelativeTo_iff.mp hc.2
      have ht : t.length = 1 := by
        have := hc.1
        rw [List.length_append] at this
        omega
      obtain ⟨x, rfl⟩ : ∃ x, t = [x] := by
        cases t with
        | nil => cases ht
        | cons a t' =>
          cases t' with
          | nil => exact ⟨a, rfl⟩
          | cons b t'' => simp at ht
      rw [List.getLast?_concat] at hfq
      obtain rfl : x = n := by injection hfq
      exact hq
    · rw [if_neg hc] at hfq
      cases hfq
  · intro hmem
    refine ⟨p ++ [n], hmem, ?_⟩
    have hc : ((p ++ [n]).length == p.length + 1 && isRelativeTo (p ++ [n]) p)
        = true := by
      rw [Bool.and_eq_true, beq_iff_eq, List.length_append, isRelativeTo_child]
      simp
    rw [if_pos hc, List.getLast?_concat]

theorem entries_nodup {fs : RemoteFS} (hwf : WFRemote fs) : fs.entries.Nodup := by
  obtain ⟨-, hf, hd, hdisj, -⟩ := hwf
  refine List.Nodup.append hd hf ?_
  intro q hq hq2
  exact hdisj q hq2 hq

theorem childNames_nodup {fs : RemoteFS} (hwf : WFRemote fs) (p : RPath) :
    (childNames fs p).Nodup := by
  refine (entries_nodup hwf).filterMap ?_
  intro a a' b hb hb'
  by_cases hc : (a.length == p.length + 1 && isRelativeTo a p) = true
  · rw [if_pos hc] at hb
    by_cases hc' : (a'.length == p.length + 1 && isRelativeTo a' p) = true
    · rw [if_pos hc'] at hb'
      rw [Bool.and_eq_true, beq_iff_eq] at hc hc'
      obtain ⟨t, rfl⟩ := isRelativeTo_iff.mp hc.2
      obtain ⟨t', rfl⟩ := isRelativeTo_iff.mp hc'.2
      have ht : t.length = 1 := by
        have := hc.1; rw [List.length_append] at this; omega
      have ht' : t'.length = 1 := by
        have := hc'.1; rw [List.length_append] at this; omega
      obtain ⟨x, rfl⟩ : ∃ x, t = [x] := by
        cases t with
        | nil => cases ht
        | cons u t2 =>
          cases t2 with
          | nil => exact ⟨u, rfl⟩
          | cons v t3 => simp at ht
      obtain ⟨x', rfl⟩ : ∃ x', t' = [x'] := by
        cases t' with
        | nil => cases ht'
        | cons u t2 =>
          cases t2 with
          | nil => exact ⟨u, rfl⟩
          | cons v t3 => simp at ht'
      rw [List.getLast?_concat] at hb hb'
      obtain rfl : x = b := by injection hb
      obtain rfl : x' = x := by injection hb'
      rfl
    · rw [if_neg hc'] at hb'; cases hb'
  · rw [if_neg hc] at hb; cases hb

theorem closure_mem {fs : RemoteFS} (hwf : WFRemote fs) {q r : RPath}
    (hq : q ∈ fs.entries) (hr : r ≠ []) (hpre : r <+: q) (hne : r ≠ q) :
    r ∈ fs.rdirs := by
  have hlt : r.length < q.length := prefix_length_lt hpre hne
  have hpos : 0 < r.length := by
    cases r with
    | nil => exact absurd rfl hr
    | cons a as => simp
  have htake : q.take r.length = r := (List.prefix_iff_eq_take.mp hpre).symm
  have := hwf.2.2.2.2 q hq r.length (List.mem_range.mpr hlt) hpos
  rwa [htake] at this

theorem exists_child_of_strictlyUnder {fs : RemoteFS} (hwf : WFRemote fs)
    {q p : RPath} (hq : q ∈ fs.entries) (hu : strictlyUnder q p = true) :
    ∃ n, p ++ [n] ∈ fs.entries ∧ isRelativeTo q (p ++ [n]) = true := by
  obtain ⟨hrel, hne⟩ := strictlyUnder_iff.mp hu
  obtain ⟨t, rfl⟩ := isRelativeTo_iff.mp hrel
  cases t with
  | nil => exact absurd (by simp) hne
  | cons n t' =>
    refine ⟨n, ?_, ?_⟩
    · cases t' with
      | nil => exact hq
      | cons m t'' =>
        refine closure_mem hwf hq (by simp) ?_ ?_ |> mem_entries_left
        · refine ⟨m :: t'', ?_⟩
          simp
        · intro he
          have := congrArg List.length he
          rw [List.length_append, List.length_append] at this
          simp at this
    · refine isRelativeTo_iff.mpr ⟨t', ?_⟩
      simp

theorem isRelativeTo_file_eq {fs : RemoteFS} (hwf : WFRemote fs) {q c : RPath}
    (hq : q ∈ fs.entries) (hc : c ∈ fs.rfiles)
    (hrel : isRelativeTo q c = true) : q = c := by
  by_contra hne
  have hcne : c ≠ [] := hwf.1 c (mem_entries_right hc)
  have : c ∈ fs.rdirs :=
    closure_mem hwf hq hcne (isRelativeTo_iff.mp hrel) (fun he => hne he.symm)
  exact hwf.2.2.2.1 c hc this

/-! ### Removal lemmas -/

/-- Both listings filtered by a keep-predicate. -/
def filterFS (fs : RemoteFS) (P : RPath → Bool) : RemoteFS :=
  ⟨fs.rfiles.filter P, fs.rdirs.filter P⟩

theorem removeSubtree_eq_filterFS (fs : RemoteFS) (c : RPath) :
    removeSubtree fs c = filterFS fs (fun q => !isRelativeTo q c) := rfl

theorem removeSubtrees_eq_filterFS (fs : RemoteFS) (ps : List RPath) :
    removeSubtrees fs ps =
      filterFS fs (fun q => !(ps.any fun c => isRelativeTo q c)) := rfl

theorem entries_filterFS (fs : RemoteFS) (P : RPath → Bool) :
    (filterFS fs P).entries = fs.entries.filter P := by
  rw [filterFS, RemoteFS.entries, RemoteFS.entries, List.filter_append]

theorem WFRemote_filterFS {fs : RemoteFS} (hwf : WFRemote fs) {P : RPath → Bool}
    (hP : ∀ q r, P r = false → r <+: q → P q = false) :
    WFRemote (filterFS fs P) := by
  obtain ⟨hne, hf, hd, hdisj, hclo⟩ := hwf
  refine ⟨?_, hf.filter P, hd.filter P, ?_, ?_⟩
  · intro q hq
    rw [entries_filterFS] at hq
    exact hne q (List.mem_filter.mp hq).1
  · intro q hq hq2
    exact hdisj q (List.mem_filter.mp hq).1 (List.mem_filter.mp hq2).1
  · intro q hq i hi hipos
    rw [entries_filterFS] at hq
    obtain ⟨hqm, hqP⟩ := List.mem_filter.mp hq
    have hr := hclo q hqm i hi hipos
    refine List.mem_filter.mpr ⟨hr, ?_⟩
    cases hPt : P (q.take i)
    · have := hP q (q.take i) hPt (List.take_prefix i q)
      rw [this] at hqP; cases hqP
    · rfl

theorem WFRemote_removeSubtree {fs : RemoteFS} (hwf : WFRemote fs) (c : RPath) :
    WFRemote (removeSubtree fs c) := by
  rw [removeSubtree_eq_filterFS]
  refine WFRemote_filterFS hwf ?_
  intro q r h hpre
  rw [Bool.not_eq_false'] at h ⊢
  exact isRelativeTo_trans (isRelativeTo_iff.mpr hpre) h

theorem WFRemote_removeSubtrees {fs : RemoteFS} (hwf : WFRemote fs)
    (ps : List RPath) : WFRemote (removeSubtrees fs ps) := by
  rw [removeSubtrees_eq_filterFS]
  refine WFRemote_filterFS hwf ?_
  intro q r h hpre
  rw [Bool.not_eq_false', List.any_eq_true] at h ⊢
  obtain ⟨c, hc, hrel⟩ := h
  exact ⟨c, hc, isRelativeTo_trans (isRelativeTo_iff.mpr hpre) hrel⟩

theorem mem_rfiles_removeSubtree {fs : RemoteFS} {c q : RPath} :
    q ∈ (removeSubtree fs c).rfiles ↔
      q ∈ fs.rfiles ∧ isRelativeTo q c = false := by
  rw [removeSubtree, List.mem_filter, Bool.not_eq_true']

theorem mem_rdirs_removeSubtree {fs : RemoteFS} {c q : RPath} :
    q ∈ (removeSubtree fs c).rdirs ↔
      q ∈ fs.rdirs ∧ isRelativeTo q c = false := by
  rw [removeSubtree, List.mem_filter, Bool.not_eq_true']

theorem mem_entries_removeSubtree {fs : RemoteFS} {c q : RPath} :
    q ∈ (removeSubtree fs c).entries ↔
      q ∈ fs.entries ∧ isRelativeTo q c = false := by
  rw [removeSubtree_eq_filterFS, entries_filterFS, List.mem_filter,
    Bool.not_eq_true']

theorem removeSubtrees_nil (fs : RemoteFS) : removeSubtrees fs [] = fs := by
  cases fs with
  | mk rf rd => simp [removeSubtrees]

theorem removeSubtrees_cons (fs : RemoteFS) (c : RPath) (cs : List RPath) :
    removeSubtrees fs (c :: cs) = removeSubtrees (removeSubtree fs c) cs := by
  cases fs with
  | mk rf rd =>
    rw [removeSubtrees, removeSubtree, removeSubtrees]
    dsimp only
    have hpred : ∀ q : RPath,
        (!((c :: cs).any fun d => isRelativeTo q d)) =
          ((!isRelativeTo q c) && !(cs.any fun d => isRelativeTo q d)) := by
      intro q
      rw [List.any_cons, Bool.not_or]
    refine congrArg₂ RemoteFS.mk ?_ ?_ <;>
      · rw [List.filter_filter]
        apply List.filter_congr
        intro q _
        rw [hpred q, Bool.and_comm]

theorem child_kept {p : RPath} {item n : String} (hne : n ≠ item) :
    isRelativeTo (p ++ [n]) (p ++ [item]) = false := by
  cases hb : isRelativeTo (p ++ [n]) (p ++ [item])
  · rfl
  · exfalso
    have heq := eq_of_isRelativeTo_length hb (by simp)
    have := List.append_cancel_left heq
    injection this with h1 _
    exact hne h1

/-! ### Correctness of the recursive delete -/

theorem nlstOp_of_mem {fs : RemoteFS} {p : RPath} (hp : p ∈ fs.rdirs) :
    nlstOp fs p = childNames fs p := by
  rw [nlstOp, if_pos (contains_iff_mem.mpr hp)]

theorem deleteFileOp_file {fs : RemoteFS} (hwf : WFRemote fs) {c : RPath}
    (hc : c ∈ fs.rfiles) :
    deleteFileOp fs c = Except.ok (removeSubtree fs c) := by
  rw [deleteFileOp, if_pos (contains_iff_mem.mpr hc)]
  congr 1
  rw [removeSubtree]
  refine congrArg₂ RemoteFS.mk ?_ ?_
  · apply List.filter_congr
    intro q hq
    by_cases hqc : q = c
    · subst hqc
      rw [isRelativeTo_refl]
      simp
    · have hrel : isRelativeTo q c = false := by
        cases hb : isRelativeTo q c
        · rfl
        · exact absurd (isRelativeTo_file_eq hwf (mem_entries_right hq) hc hb) hqc
      rw [hrel]
      simp [bne_iff_ne, hqc]
  · symm
    apply List.filter_eq_self.mpr
    intro q hq
    cases hb : isRelativeTo q c
    · rfl
    · exfalso
      have hqe := isRelativeTo_file_eq hwf (mem_entries_left hq) hc hb
      subst hqe
      exact hwf.2.2.2.1 q hc hq

theorem deleteFileOp_notfile {fs : RemoteFS} {c : RPath} (hc : c ∉ fs.rfiles) :
    deleteFileOp fs c = Except.error FtpErr.errorPerm := by
  rw [deleteFileOp, if_neg]
  intro hcon
  exact hc (contains_iff_mem.mp hcon)

/-- The remote calls `delChildren` must have issued for the child `n`. -/
def childEvents (fs : RemoteFS) (p : RPath) (n : String) (evs : List DelEv) :
    Prop :=
  (p ++ [n] ∈ fs.rfiles → DelEv.dele (p ++ [n]) true ∈ evs) ∧
  (p ++ [n] ∈ fs.rdirs →
    DelEv.dele (p ++ [n]) false ∈ evs ∧ DelEv.rmd (p ++ [n]) true ∈ evs)

theorem mem_of_getLast?_eq {l : List DelEv} {x : DelEv}
    (h : l.getLast? = some x) : x ∈ l := by
  obtain ⟨hne, hx⟩ := List.mem_getLast?_eq_getLast (show x ∈ l.getLast? from h)
  rw [hx]
  exact List.getLast_mem hne

theorem childEvents_mono {fs : RemoteFS} {p : RPath} {n : String}
    {evs evs' : List DelEv} (hsub : ∀ e ∈ evs, e ∈ evs')
    (h : childEvents fs p n evs) : childEvents fs p n evs' :=
  ⟨fun hm => hsub _ (h.1 hm),
   fun hm => ⟨hsub _ ((h.2 hm).1), hsub _ ((h.2 hm).2)⟩⟩

/-- Specification of `recursiveDelete` at a given fuel: on a well-formed
remote and an existing directory, with enough fuel, it succeeds, removes
exactly the subtree, lists the directory first, ends with the successful
retry of the plain delete, and processes every listed child. -/
def RECstat (fuel : Nat) : Prop :=
  ∀ fs p, WFRemote fs → p ∈ fs.rdirs →
    (∀ q ∈ fs.entries, isRelativeTo q p = true → q.length < p.length + fuel) →
    (∀ n ∈ nlstOp fs p, p ≠ [n]) →
    ∃ evs, recursiveDelete fuel fs p = (evs, Except.ok (removeSubtree fs p)) ∧
      evs.head? = some (DelEv.nlst p (nlstOp fs p)) ∧
      evs.getLast? = some (DelEv.rmd p true) ∧
      ∀ n ∈ nlstOp fs p, childEvents fs p n evs

/-- Specification of the `delChildren` loop at a given fuel. -/
def DCstat (fuel : Nat) : Prop :=
  ∀ items fs p, WFRemote fs → p ≠ [] → items.Nodup →
    (∀ n ∈ items, p ++ [n] ∈ fs.entries) →
    (∀ n ∈ items, ∀ q ∈ fs.entries, isRelativeTo q (p ++ [n]) = true →
      q.length < p.length + 1 + fuel) →
    (∀ n ∈ items, p ≠ [n]) →
    ∃ evs, delChildren fuel fs p items =
        (evs, Except.ok (removeSubtrees fs (items.map fun n => p ++ [n]))) ∧
      ∀ n ∈ items, childEvents fs p n evs

theorem delChildren_spec (fuel : Nat) (hrec : RECstat fuel) : DCstat fuel := by
  intro items
  induction items with
  | nil =>
    intro fs p hwf hpne hnd hval hfuel hskip
    refine ⟨[], ?_, ?_⟩
    · rw [delChildren, List.map_nil, removeSubtrees_nil]
    · intro n hn
      cases hn
  | cons item rest ih =>
    intro fs p hwf hpne hnd hval hfuel hskip
    obtain ⟨hnotin, hndrest⟩ := List.nodup_cons.mp hnd
    have hpitem : p ≠ [item] := hskip item (List.mem_cons_self item rest)
    have hchild : p ++ [item] ∈ fs.entries :=
      hval item (List.mem_cons_self item rest)
    have hkept : ∀ n ∈ rest, isRelativeTo (p ++ [n]) (p ++ [item]) = false := by
      intro n hn
      exact child_kept fun he => hnotin (he ▸ hn)
    -- the recursive call on `rest` over the state with `p ++ [item]`'s
    -- subtree removed
    have hIH := ih (removeSubtree fs (p ++ [item])) p
      (WFRemote_removeSubtree hwf (p ++ [item])) hpne hndrest
      (fun n hn => mem_entries_removeSubtree.mpr
        ⟨hval n (List.mem_cons_of_mem item hn), hkept n hn⟩)
      (fun n hn q hq hrel => hfuel n (List.mem_cons_of_mem item hn) q
        (mem_entries_removeSubtree.mp hq).1 hrel)
      (fun n hn => hskip n (List.mem_cons_of_mem item hn))
    obtain ⟨evs', hdc', hevents'⟩ := hIH
    have htarget : removeSubtrees (removeSubtree fs (p ++ [item]))
        (rest.map fun n => p ++ [n]) =
        removeSubtrees fs ((item :: rest).map fun n => p ++ [n]) := by
      rw [List.map_cons, removeSubtrees_cons]
    have hliftev : ∀ n ∈ rest, ∀ evsBig : List DelEv,
        (∀ e ∈ evs', e ∈ evsBig) → childEvents fs p n evsBig := by
      intro n hn evsBig hsub
      have hev := hevents' n hn
      refine ⟨fun hm => ?_, fun hm => ?_⟩
      · have : p ++ [n] ∈ (removeSubtree fs (p ++ [item])).rfiles :=
          mem_rfiles_removeSubtree.mpr ⟨hm, hkept n hn⟩
        exact hsub _ (hev.1 this)
      · have : p ++ [n] ∈ (removeSubtree fs (p ++ [item])).rdirs :=
          mem_rdirs_removeSubtree.mpr ⟨hm, hkept n hn⟩
        exact ⟨hsub _ ((hev.2 this).1), hsub _ ((hev.2 this).2)⟩
    by_cases hfile : p ++ [item] ∈ fs.rfiles
    · -- the child is a file: one successful DELE
      have hdel := deleteFileOp_file hwf hfile
      refine ⟨DelEv.dele (p ++ [item]) true :: evs', ?_, ?_⟩
      · rw [delChildren, if_neg hpitem]
        simp only [hdel, hdc', htarget]
      · intro n hn
        rcases List.mem_cons.mp hn with rfl | hn'
        · refine ⟨fun _ => List.mem_cons_self _ _, fun hm => absurd hm ?_⟩
          intro hmem
          exact hwf.2.2.2.1 _ hfile hmem
        · exact hliftev n hn' _ fun e he => List.mem_cons_of_mem _ he
    · -- the child is a directory: failed DELE, then the recursive delete
      have hcdir : p ++ [item] ∈ fs.rdirs := by
        rcases List.mem_append.mp hchild with h | h
        · exact h
        · exact absurd h hfile
      have hdelerr := deleteFileOp_notfile hfile
      have hlen1 : 1 ≤ p.length := by
        cases p with
        | nil => exact absurd rfl hpne
        | cons a as => simp
      have hrc := hrec fs (p ++ [item]) hwf hcdir
        (fun q hq hrel => by
          have := hfuel item (List.mem_cons_self item rest) q hq hrel
          rw [List.length_append, List.length_cons, List.length_nil]
          omega)
        (fun n _ he => by
          have hl := congrArg List.length he
          simp only [List.length_append, List.length_cons, List.length_nil] at hl
          omega)
      obtain ⟨evsc, hrceq, hheadc, hlastc, hcevs⟩ := hrc
      refine ⟨DelEv.dele (p ++ [item]) false :: (evsc ++ evs'), ?_, ?_⟩
      · rw [delChildren, if_neg hpitem]
        simp only [hdelerr, hrceq, hdc', htarget]
      · intro n hn
        rcases List.mem_cons.mp hn with rfl | hn'
        · refine ⟨fun hm => absurd hm hfile, fun _ => ?_⟩
          constructor
          · exact List.mem_cons_self _ _
          · refine List.mem_cons_of_mem _ (List.mem_append_left _ ?_)
            exact mem_of_getLast?_eq hlastc
        · refine hliftev n hn' _ fun e he => ?_
          exact List.mem_cons_of_mem _ (List.mem_append_right _ he)

theorem recursiveDelete_spec : ∀ fuel, RECstat fuel := by
  intro fuel
  induction fuel with
  | zero =>
    intro fs p hwf hp hfuel hskip
    exfalso
    have := hfuel p (mem_entries_left hp) (isRelativeTo_refl p)
    omega
  | succ fuel ih =>
    intro fs p hwf hp hfuel hskip
    have hnl : nlstOp fs p = childNames fs p := nlstOp_of_mem hp
    have hpne : p ≠ [] := hwf.1 p (mem_entries_left hp)
    have hvalid : ∀ n ∈ nlstOp fs p, p ++ [n] ∈ fs.entries := by
      intro n hn
      rw [hnl] at hn
      exact mem_childNames_iff.mp hn
    obtain ⟨evs, hdcrun, hevents⟩ :=
      delChildren_spec fuel ih (nlstOp fs p) fs p hwf hpne
        (hnl ▸ childNames_nodup hwf p) hvalid
        (fun n _ q hq hrel => by
          have hqp : isRelativeTo q p = true :=
            isRelativeTo_trans hrel (isRelativeTo_child p n)
          have := hfuel q hq hqp
          omega)
        hskip
    -- after the loop, everything strictly below `p` is gone
    have hanyiff : ∀ q ∈ fs.entries, q ≠ p →
        (((nlstOp fs p).map fun n => p ++ [n]).any fun c => isRelativeTo q c)
          = isRelativeTo q p := by
      intro q hq hqp
      cases hb : isRelativeTo q p
      · apply list_any_eq_false.mpr
        intro c hc
        obtain ⟨n, _, rfl⟩ := List.mem_map.mp hc
        cases hbc : isRelativeTo q (p ++ [n])
        · rfl
        · exfalso
          have := isRelativeTo_trans hbc (isRelativeTo_child p n)
          rw [hb] at this
          cases this
      · apply List.any_eq_true.mpr
        have hsu : strictlyUnder q p = true := strictlyUnder_iff.mpr ⟨hb, hqp⟩
        obtain ⟨n, hne, hrel⟩ := exists_child_of_strictlyUnder hwf hq hsu
        refine ⟨p ++ [n], List.mem_map.mpr ⟨n, ?_, rfl⟩, hrel⟩
        rw [hnl]
        exact mem_childNames_iff.mpr hne
    have hpkeep : (((nlstOp fs p).map fun n => p ++ [n]).any
        fun c => isRelativeTo p c) = false := by
      apply list_any_eq_false.mpr
      intro c hc
      obtain ⟨n, _, rfl⟩ := List.mem_map.mp hc
      exact not_isRelativeTo_self_child p n
    have hpfs' : p ∈ (removeSubtrees fs ((nlstOp fs p).map fun n => p ++ [n])).rdirs := by
      rw [removeSubtrees]
      refine List.mem_filter.mpr ⟨hp, ?_⟩
      rw [hpkeep]
      rfl
    have hnoch : noChildren
        (removeSubtrees fs ((nlstOp fs p).map fun n => p ++ [n])) p = true := by
      rw [noChildren, Bool.not_eq_true']
      apply list_any_eq_false.mpr
      intro q hq
      rw [removeSubtrees_eq_filterFS, entries_filterFS, List.mem_filter] at hq
      obtain ⟨hqe, hqkeep⟩ := hq
      cases hb : strictlyUnder q p
      · rfl
      · exfalso
        obtain ⟨hrel, hqp⟩ := strictlyUnder_iff.mp hb
        rw [hanyiff q hqe hqp, hrel] at hqkeep
        cases hqkeep
    have hrmd : rmdOp (removeSubtrees fs ((nlstOp fs p).map fun n => p ++ [n])) p =
        Except.ok ⟨(removeSubtrees fs ((nlstOp fs p).map fun n => p ++ [n])).rfiles,
          (removeSubtrees fs ((nlstOp fs p).map fun n => p ++ [n])).rdirs.filter
            (fun q => q != p)⟩ := by
      rw [rmdOp, if_pos (contains_iff_mem.mpr hpfs'), if_pos hnoch]
    have hfinal : (⟨(removeSubtrees fs ((nlstOp fs p).map fun n => p ++ [n])).rfiles,
        (removeSubtrees fs ((nlstOp fs p).map fun n => p ++ [n])).rdirs.filter
          (fun q => q != p)⟩ : RemoteFS) = removeSubtree fs p := by
      rw [removeSubtrees, removeSubtree]
      refine congrArg₂ RemoteFS.mk ?_ ?_
      · apply List.filter_congr
        intro q hq
        have hqp : q ≠ p := by
          intro he
          subst he
          exact hwf.2.2.2.1 q hq hp
        rw [hanyiff q (mem_entries_right hq) hqp]
      · rw [List.filter_filter]
        apply List.filter_congr
        intro q hq
        by_cases hqp : q = p
        · subst hqp
          rw [isRelativeTo_refl]
          simp
        · have h1 : (q != p) = true := bne_iff_ne.mpr hqp
          rw [h1, Bool.true_and, hanyiff q (mem_entries_left hq) hqp]
    have hrun : recursiveDelete (fuel + 1) fs p =
        (DelEv.nlst p (nlstOp fs p) :: (evs ++ [DelEv.rmd p true]),
          Except.ok (removeSubtree fs p)) := by
      rw [recursiveDelete]
      simp only [hdcrun, hrmd, hfinal]
      rfl
    refine ⟨DelEv.nlst p (nlstOp fs p) :: (evs ++ [DelEv.rmd p true]), hrun,
      rfl, ?_, ?_⟩
    · rw [show DelEv.nlst p (nlstOp fs p) :: (evs ++ [DelEv.rmd p true]) =
        (DelEv.nlst p (nlstOp fs p) :: evs) ++ [DelEv.rmd p true] from rfl]
      rw [List.getLast?_concat]
    · intro n hn
      refine childEvents_mono ?_ (hevents n hn)
      intro e he
      exact List.mem_cons_of_mem _ (List.mem_append_left _ he)

/-- **C7.** `deleteDirectory` on a non-empty directory fails with the
"not empty" `error_perm`; on exactly that condition `delete_dir` falls
back to `recursive_delete`, which first lists the directory's immediate
children, deletes each file child with a plain successful `DELE`,
recurses into each sub-directory child (its `DELE` fails and its own
`rmd` eventually succeeds), and only then retries the plain `rmd`, which
succeeds, leaving the remote with the whole subtree removed.  When the
plain `rmd` succeeds at once, no listing or child deletion is issued. -/
theorem deleteDir_recursive_fallback (fuel : Nat) (fs : RemoteFS) (p : RPath)
    (hwf : WFRemote fs) (hp : p ∈ fs.rdirs)
    (hne : ∃ q ∈ fs.entries, strictlyUnder q p = true)
    (hfuel : ∀ q ∈ fs.entries, isRelativeTo q p = true →
      q.length < p.length + fuel)
    (hskip : ∀ n ∈ nlstOp fs p, p ≠ [n]) :
    rmdOp fs p = Except.error FtpErr.errorPerm ∧
    (∃ evs, deleteDirRun fuel fs p =
        (DelEv.rmd p false :: evs, Except.ok (removeSubtree fs p)) ∧
      evs.head? = some (DelEv.nlst p (nlstOp fs p)) ∧
      evs.getLast? = some (DelEv.rmd p true) ∧
      ∀ n ∈ nlstOp fs p, childEvents fs p n evs) ∧
    (∀ (fs₂ : RemoteFS) (q : RPath) (fs₃ : RemoteFS),
      rmdOp fs₂ q = Except.ok fs₃ →
      deleteDirRun fuel fs₂ q = ([DelEv.rmd q true], Except.ok fs₃)) := by
  have hrmderr : rmdOp fs p = Except.error FtpErr.errorPerm := by
    rw [rmdOp, if_pos (contains_iff_mem.mpr hp), if_neg]
    intro hnochk
    rw [noChildren, Bool.not_eq_true'] at hnochk
    obtain ⟨q, hq, hu⟩ := hne
    have := (list_any_eq_false.mp hnochk) q hq
    rw [hu] at this
    cases this
  obtain ⟨evs, hrun, hhead, hlast, hev⟩ :=
    recursiveDelete_spec fuel fs p hwf hp hfuel hskip
  refine ⟨hrmderr, ⟨evs, ?_, hhead, hlast, hev⟩, ?_⟩
  · rw [deleteDirRun]
    simp only [hrmderr, hrun]
  · intro fs₂ q fs₃ hok
    rw [deleteDirRun]
    simp only [hok]

theorem deleteDir_recursive_fallback_witness :
    rmdOp ⟨[["d", "e.txt"], ["d", "f.txt"]], [["d"]]⟩ ["d"] =
      Except.error FtpErr.errorPerm :=
  (deleteDir_recursive_fallback 3 ⟨[["d", "e.txt"], ["d", "f.txt"]], [["d"]]⟩
    ["d"] (by unfold WFRemote; decide) (by decide)
    ⟨["d", "e.txt"], by decide, by decide⟩ (by decide) (by decide)).1

end Synk
